import Mathlib

/-!
Verification of the attributable-risk core of the `dynaryu/notebooks`
repository (the attribution notebook embedded alongside `TrackMaps.ipynb`).

The notebook defines three pure numerical routines:

* `jointProb x y mu beta T1 T2` — Poisson-binomial joint probability mass;
* `attributable x y tau` — point estimate `1 - x / (tau * y)`;
* `confidence x y alpha tau` — two-sided confidence interval for the
  attributable risk, returning `None` when `y == 0`, a closed-form pair when
  `x == 0`, and a Wilson-score-derived pair otherwise.

The embedding below works over `ℝ`.  The counts `x`, `y` in `jointProb` are
naturals (the factorials in the source are only meaningful there); everywhere
else the source passes floats, so the arguments stay real.  The general branch
of `confidence` calls the external quantile `scipy.stats.norm.ppf (alpha/2)`;
that value enters the embedding as the explicit argument `z`, and is
characterised against `stdNormalCDF` (the standard normal CDF, modelled below)
where a claim needs it.
-/

namespace TrackMaps

/-- Point estimate of attributable risk, from the notebook:
`def attributable(x, y, tau): return 1. - x / (tau * y)`. -/
noncomputable def attributable (x y tau : ℝ) : ℝ :=
  1 - x / (tau * y)

/-- Joint probability mass, from the notebook.  `totalobs` is the Poisson mass
of the total count at rate `mu * (T1 + beta * T2)`; `condprob` the binomial
split with weights `tau / (tau + beta)` and `beta / (tau + beta)` where
`tau = T1 / T2`; the result is their product. -/
noncomputable def jointProb (x y : ℕ) (mu beta T1 T2 : ℝ) : ℝ :=
  (mu * (T1 + beta * T2)) ^ (x + y) * Real.exp (-(mu * (T1 + beta * T2))) /
      (Nat.factorial (x + y) : ℝ) *
    ((Nat.factorial (x + y) : ℝ) / ((Nat.factorial x : ℝ) * (Nat.factorial y : ℝ)) *
        (T1 / T2 / (T1 / T2 + beta)) ^ x *
      (beta / (T1 / T2 + beta)) ^ y)

/-- Poisson mass of the total count, written as the spec states it:
`P_total(n) = total_rate^n * exp(-total_rate) / n!`. -/
noncomputable def P_total (n : ℕ) (mu beta T1 T2 : ℝ) : ℝ :=
  (mu * (T1 + beta * T2)) ^ n * Real.exp (-(mu * (T1 + beta * T2))) /
    (Nat.factorial n : ℝ)

/-- Binomial split factor, written as the spec states it:
`P_split(x | x+y) = C(x+y, x) * (tau/(tau+beta))^x * (beta/(tau+beta))^y`. -/
noncomputable def P_split (x y : ℕ) (beta tau : ℝ) : ℝ :=
  (Nat.choose (x + y) x : ℝ) * (tau / (tau + beta)) ^ x * (beta / (tau + beta)) ^ y

/-- Wilson determinant term of the general branch of `confidence`:
`det = np.sqrt(q * (1 - q) + z*z/(4 * n))` with `n = x + y`, `q = x / n`. -/
noncomputable def wilsonDet (x y z : ℝ) : ℝ :=
  Real.sqrt (x / (x + y) * (1 - x / (x + y)) + z * z / (4 * (x + y)))

/-- Wilson centre term of the general branch of `confidence`:
`a = (x + z*z/2) / (n + z*z)`. -/
noncomputable def wilsonA (x y z : ℝ) : ℝ :=
  (x + z * z / 2) / (x + y + z * z)

/-- Wilson half-width coefficient of the general branch of `confidence`:
`b = z*np.sqrt(n) / (n + z*z)`. -/
noncomputable def wilsonB (x y z : ℝ) : ℝ :=
  z * Real.sqrt (x + y) / (x + y + z * z)

/-- Lower Wilson proportion root as the source computes it: `L = a - b * det`. -/
noncomputable def wilsonL (x y z : ℝ) : ℝ :=
  wilsonA x y z - wilsonB x y z * wilsonDet x y z

/-- Upper Wilson proportion root as the source computes it: `U = a + b * det`. -/
noncomputable def wilsonU (x y z : ℝ) : ℝ :=
  wilsonA x y z + wilsonB x y z * wilsonDet x y z

/-- Confidence interval for attributable risk, from the notebook.  Returns
`none` (Python `None`) when `y == 0`; the closed-form pair when `x == 0`
(`np.power(alpha, 1./n)` is real exponentiation `alpha ^ (1/n)`); otherwise
the Wilson-score pair, where `z` stands for the external library value
`norm.ppf (alpha/2)`.  The pair is `(p_L, p_U)` in source order. -/
noncomputable def confidence (x y alpha tau z : ℝ) : Option (ℝ × ℝ) :=
  if y = 0 then none
  else if x = 0 then
    some (1 - (1 - alpha ^ (1 / (x + y))) / (tau * alpha ^ (1 / (x + y))),
      1 - alpha ^ (1 / (x + y)))
  else
    some
      (1 - 1 / (tau * (1 - wilsonL x y z) / wilsonL x y z),
        1 - 1 / (tau * (1 - wilsonU x y z) / wilsonU x y z))

/-- Modelled from the spec: the standard normal probability density,
`exp(-u²/2) / √(2π)`, underlying the external `scipy.stats.norm` family. -/
noncomputable def stdNormalPDF (u : ℝ) : ℝ :=
  Real.exp (-(1 / 2) * u ^ 2) / Real.sqrt (2 * Real.pi)

/-- Modelled from the spec: the standard normal cumulative distribution
function underlying the external `scipy.stats.norm.ppf` quantile, which is
absent from the source (it lives in scipy).  The spec describes the quantile
as `z = Φ⁻¹(α/2)`; a real `z` is that quantile exactly when
`stdNormalCDF z = α / 2`. -/
noncomputable def stdNormalCDF (t : ℝ) : ℝ :=
  ∫ u in Set.Iic t, stdNormalPDF u

end TrackMaps

namespace TrackMaps

/-- The claim C2 as frozen says `attributable` strictly decreases in `tau`;
at `x = 10`, `y = 10` the value at `tau = 1` is strictly below the value at
`tau = 2`, refuting that. -/
theorem attributable_not_decreasing_cex :
    attributable 10 10 1 < attributable 10 10 2 := by
  unfold attributable
  norm_num

/-- Claim C2 (amended): for fixed `x > 0`, `y > 0`, the map
`tau ↦ attributable x y tau` is strictly increasing on `tau > 0`. -/
theorem attributable_strictMono_tau (x y t1 t2 : ℝ) (hx : 0 < x) (hy : 0 < y)
    (ht1 : 0 < t1) (h12 : t1 < t2) :
    attributable x y t1 < attributable x y t2 := by
  unfold attributable
  have ht2 : 0 < t2 := lt_trans ht1 h12
  have hden1 : 0 < t1 * y := mul_pos ht1 hy
  have hden2 : 0 < t2 * y := mul_pos ht2 hy
  have hlt : x / (t2 * y) < x / (t1 * y) :=
    div_lt_div_of_pos_left hx hden1 (by nlinarith)
  linarith

/-- Witness for `attributable_strictMono_tau` at `x = 10`, `y = 10`,
`tau` from `1` to `2`. -/
theorem attributable_strictMono_tau_witness :
    (0:ℝ) < 10 ∧ (0:ℝ) < 1 ∧ (1:ℝ) < 2 ∧ attributable 10 10 1 < attributable 10 10 2 :=
  ⟨by norm_num, by norm_num, by norm_num,
    attributable_strictMono_tau 10 10 1 2 (by norm_num) (by norm_num) (by norm_num)
      (by norm_num)⟩

/-- Claim C4: for `x ≥ 0`, `y > 0`, `tau > 0`, `attributable` equals the
closed form `1 - x / (tau * y)` exactly, and `attributable 10 10 1 = 0`. -/
theorem attributable_closed_form (x y tau : ℝ) (hx : 0 ≤ x) (hy : 0 < y)
    (htau : 0 < tau) :
    attributable x y tau = 1 - x / (tau * y) ∧ attributable 10 10 1 = 0 := by
  refine ⟨rfl, ?_⟩
  unfold attributable
  norm_num

/-- Witness for `attributable_closed_form` at `x = 10`, `y = 10`, `tau = 1`. -/
theorem attributable_closed_form_witness :
    (0:ℝ) ≤ 10 ∧ (0:ℝ) < 10 ∧ (0:ℝ) < 1 ∧
      (attributable 10 10 1 = 1 - 10 / (1 * 10) ∧ attributable 10 10 1 = 0) :=
  ⟨by norm_num, by norm_num, by norm_num,
    attributable_closed_form 10 10 1 (by norm_num) (by norm_num) (by norm_num)⟩

/-- Claim C8: with `y = 0` the `confidence` routine returns the distinct
undefined sentinel `none` for every `x`, `alpha`, `tau` (and quantile value
`z`); in particular at `x = 10`. -/
theorem confidence_y_zero_sentinel :
    (∀ x alpha tau z : ℝ, confidence x 0 alpha tau z = none) ∧
      (∀ alpha tau z : ℝ, confidence 10 0 alpha tau z = none) := by
  constructor
  · intro x alpha tau z
    unfold confidence
    simp
  · intro alpha tau z
    unfold confidence
    simp

/-- Claim C10: the division `q = x / n` in `confidence` never divides by
zero: for `x ≥ 0`, `y ≥ 0`, any call that does not return the sentinel has
passed the `y == 0` guard, hence `n = x + y ≥ y > 0`. -/
theorem confidence_divisor_pos (x y alpha tau z : ℝ) (hx : 0 ≤ x) (hy : 0 ≤ y)
    (h : confidence x y alpha tau z ≠ none) : 0 < x + y := by
  by_cases hy0 : y = 0
  · exfalso
    apply h
    unfold confidence
    simp [hy0]
  · have : 0 < y := lt_of_le_of_ne hy (Ne.symm hy0)
    linarith

/-- Witness for `confidence_divisor_pos` at `x = 1`, `y = 1`. -/
theorem confidence_divisor_pos_witness :
    (0:ℝ) ≤ 1 ∧ confidence 1 1 (1/2) 1 (-1) ≠ none ∧ (0:ℝ) < 1 + 1 := by
  have h : confidence 1 1 (1/2) 1 (-1) ≠ none := by
    unfold confidence
    norm_num
    exact Option.some_ne_none _
  exact ⟨by norm_num, h, confidence_divisor_pos 1 1 (1/2) 1 (-1) (by norm_num)
    (by norm_num) h⟩

/-- Abbreviation for the tenth root of `alpha = 0.05` appearing in the
`x = 0`, `y = 10` scenario: `c = 0.05 ^ (1/10)`. -/
noncomputable def cRoot : ℝ := (1/20 : ℝ) ^ ((1:ℝ)/10)

lemma cRoot_pos : 0 < cRoot :=
  Real.rpow_pos_of_pos (by norm_num) _

lemma cRoot_pow_ten : cRoot ^ (10:ℕ) = 1/20 := by
  unfold cRoot
  rw [← Real.rpow_natCast ((1/20 : ℝ) ^ ((1:ℝ)/10)) 10,
    ← Real.rpow_mul (by norm_num : (0:ℝ) ≤ 1/20)]
  norm_num

lemma cRoot_gt : (0.7410 : ℝ) < cRoot := by
  by_contra h
  push_neg at h
  have hb : cRoot ^ (10:ℕ) ≤ (0.7410:ℝ) ^ (10:ℕ) :=
    pow_le_pow_left₀ cRoot_pos.le h 10
  rw [cRoot_pow_ten] at hb
  norm_num at hb

lemma cRoot_lt : cRoot < (0.7412 : ℝ) := by
  by_contra h
  push_neg at h
  have hb : (0.7412:ℝ) ^ (10:ℕ) ≤ cRoot ^ (10:ℕ) :=
    pow_le_pow_left₀ (by norm_num) h 10
  rw [cRoot_pow_ten] at hb
  norm_num at hb

/-- Evaluation of the `x == 0` branch of `confidence` at scenario 2 of the
spec: `x = 0`, `y = 10`, `alpha = 0.05`, `tau = 2` (the quantile argument is
irrelevant on this branch). -/
lemma confidence_scenario2_eq :
    confidence 0 10 (1/20) 2 0 =
      some (1 - (1 - cRoot) / (2 * cRoot), 1 - cRoot) := by
  unfold confidence cRoot
  norm_num

/-- Bounds on the second component (`p_U`) returned at scenario 2. -/
lemma scenario2_pU_bounds :
    (0.2588 : ℝ) < 1 - cRoot ∧ 1 - cRoot < (0.2590 : ℝ) := by
  have h1 := cRoot_gt
  have h2 := cRoot_lt
  constructor <;> nlinarith

/-- Bounds on the first component (`p_L`) returned at scenario 2. -/
lemma scenario2_pL_bounds :
    (0.8245 : ℝ) < 1 - (1 - cRoot) / (2 * cRoot) ∧
      1 - (1 - cRoot) / (2 * cRoot) < (0.8255 : ℝ) := by
  have h1 := cRoot_gt
  have h2 := cRoot_lt
  have hc : 0 < 2 * cRoot := by nlinarith
  constructor
  · have hq : (1 - cRoot) / (2 * cRoot) < 0.1755 := by
      rw [div_lt_iff₀ hc]
      nlinarith
    linarith
  · have hq : (0.1745 : ℝ) < (1 - cRoot) / (2 * cRoot) := by
      rw [lt_div_iff₀ hc]
      nlinarith
    linarith

/-- Claim C5: when `x = 0` and `y ≠ 0`, `confidence` returns the closed-form
pair `p_U = 1 - alpha^(1/n)`, `p_L = 1 - (1 - alpha^(1/n)) / (tau * alpha^(1/n))`
with `n = x + y = y`, and the result does not depend on the quantile value
`z` of the general branch, which is never executed. -/
theorem confidence_x_zero_branch (y alpha tau z z' : ℝ) (hy : y ≠ 0) :
    confidence 0 y alpha tau z =
      some (1 - (1 - alpha ^ (1 / y)) / (tau * alpha ^ (1 / y)),
        1 - alpha ^ (1 / y)) ∧
      confidence 0 y alpha tau z = confidence 0 y alpha tau z' := by
  constructor <;> simp [confidence, hy]

/-- Witness for `confidence_x_zero_branch` at `y = 10`, `alpha = 0.05`,
`tau = 2`, quantile values `0` and `1`. -/
theorem confidence_x_zero_branch_witness :
    (10:ℝ) ≠ 0 ∧
      (confidence 0 10 (1/20) 2 0 =
          some (1 - (1 - (1/20:ℝ) ^ ((1:ℝ) / 10)) / (2 * (1/20:ℝ) ^ ((1:ℝ) / 10)),
            1 - (1/20:ℝ) ^ ((1:ℝ) / 10)) ∧
        confidence 0 10 (1/20) 2 0 = confidence 0 10 (1/20) 2 1) :=
  ⟨by norm_num, confidence_x_zero_branch 10 (1/20) 2 0 1 (by norm_num)⟩

/-- The claim C3 as frozen gives the right branch formulas but the wrong
numeric values: at `x = 0`, `y = 10`, `tau = 2`, `alpha = 0.05` the code
returns `p_U = 1 - 0.05^(1/10) ≈ 0.259` (not `≈ 0.741`) and
`p_L = 1 - (1 - 0.05^(1/10)) / (2 * 0.05^(1/10)) ≈ 0.825` (not `≈ -0.129`):
both components are far outside the claimed three-significant-figure
windows. -/
theorem confidence_scenario2_values_cex :
    confidence 0 10 (1/20) 2 0 =
        some (1 - (1 - cRoot) / (2 * cRoot), 1 - cRoot) ∧
      1 - cRoot < (0.741 : ℝ) - 0.0005 ∧
      (-0.129 : ℝ) + 0.0005 < 1 - (1 - cRoot) / (2 * cRoot) := by
  refine ⟨confidence_scenario2_eq, ?_, ?_⟩
  · have h := scenario2_pU_bounds.2
    linarith
  · have h := scenario2_pL_bounds.1
    linarith

/-- Claim C3 (amended): at `x = 0`, `y = 10`, `tau = 2`, `alpha = 0.05` the
code takes the `x == 0` branch and returns exactly
`p_U = 1 - 0.05^(1/10)` and `p_L = 1 - (1 - 0.05^(1/10)) / (2 * 0.05^(1/10))`,
whose numeric values are `p_U ≈ 0.259` and `p_L ≈ 0.825` at three
significant figures. -/
theorem confidence_scenario2_values :
    confidence 0 10 (1/20) 2 0 =
        some (1 - (1 - cRoot) / (2 * cRoot), 1 - cRoot) ∧
      (0.2585 : ℝ) < 1 - cRoot ∧ 1 - cRoot < (0.2595 : ℝ) ∧
      (0.8245 : ℝ) < 1 - (1 - cRoot) / (2 * cRoot) ∧
      1 - (1 - cRoot) / (2 * cRoot) < (0.8255 : ℝ) := by
  refine ⟨confidence_scenario2_eq, ?_, ?_, scenario2_pL_bounds.1,
    scenario2_pL_bounds.2⟩
  · have h := scenario2_pU_bounds.1
    linarith
  · have h := scenario2_pU_bounds.2
    linarith

/-- The claim C1 as frozen asserts `p_L ≤ p_U` on both branches; the
`x == 0` branch violates it: at `x = 0`, `y = 10`, `tau = 2`, `alpha = 0.05`
the returned pair has `p_U < p_L`. -/
theorem confidence_ordering_cex :
    confidence 0 10 (1/20) 2 0 =
        some (1 - (1 - cRoot) / (2 * cRoot), 1 - cRoot) ∧
      1 - cRoot < 1 - (1 - cRoot) / (2 * cRoot) := by
  refine ⟨confidence_scenario2_eq, ?_⟩
  have h1 := scenario2_pU_bounds.2
  have h2 := scenario2_pL_bounds.1
  linarith

/-- Unconditional factorization of `jointProb`: the Poisson cancellation of
`(x+y)!` against the binomial-coefficient numerator is an identity of real
numbers (factorials are never zero). -/
lemma jointProb_eq_mul (x y : ℕ) (mu beta T1 T2 : ℝ) :
    jointProb x y mu beta T1 T2 =
      P_total (x + y) mu beta T1 T2 * P_split x y beta (T1 / T2) := by
  unfold jointProb P_total P_split
  have hchoose : ((x + y).choose x : ℝ) =
      ((x + y).factorial : ℝ) /
        ((x.factorial : ℝ) * (((x + y) - x).factorial : ℝ)) :=
    Nat.cast_choose ℝ (Nat.le_add_right x y)
  rw [Nat.add_sub_cancel_left] at hchoose
  rw [hchoose]

/-- Claim C6: for counts `x, y` and positive parameters, `jointProb` equals
the product of the Poisson mass of the total `x + y` and the binomial split
factor with success weight `tau / (tau + beta)` where `tau = T1 / T2`. -/
theorem jointProb_factorization (x y : ℕ) (mu beta T1 T2 : ℝ)
    (hmu : 0 < mu) (hbeta : 0 < beta) (hT1 : 0 < T1) (hT2 : 0 < T2) :
    jointProb x y mu beta T1 T2 =
      P_total (x + y) mu beta T1 T2 * P_split x y beta (T1 / T2) :=
  jointProb_eq_mul x y mu beta T1 T2

/-- Witness for `jointProb_factorization` at `x = 1`, `y = 2`, unit
parameters. -/
theorem jointProb_factorization_witness :
    (0:ℝ) < 1 ∧
      jointProb 1 2 1 1 1 1 = P_total (1 + 2) 1 1 1 1 * P_split 1 2 1 (1 / 1) :=
  ⟨by norm_num,
    jointProb_factorization 1 2 1 1 1 1 (by norm_num) (by norm_num) (by norm_num)
      (by norm_num)⟩

/-- The two split weights sum to one whenever `tau` and `beta` are
positive. -/
lemma split_weights_sum_one {beta tau : ℝ} (hb : 0 < beta) (ht : 0 < tau) :
    tau / (tau + beta) + beta / (tau + beta) = 1 := by
  have h : tau + beta ≠ 0 := by positivity
  field_simp

/-- The binomial split factor is at most one for positive `tau`, `beta`. -/
lemma P_split_le_one (x y : ℕ) {beta tau : ℝ} (hb : 0 < beta) (ht : 0 < tau) :
    P_split x y beta tau ≤ 1 := by
  have hp : 0 ≤ tau / (tau + beta) := by positivity
  have hq : 0 ≤ beta / (tau + beta) := by positivity
  have hpq := split_weights_sum_one hb ht
  have hterm : ∀ i ∈ Finset.range (x + y + 1),
      0 ≤ (tau / (tau + beta)) ^ i * (beta / (tau + beta)) ^ (x + y - i) *
        ((x + y).choose i : ℝ) := by
    intro i hi
    positivity
  have hmem : x ∈ Finset.range (x + y + 1) := Finset.mem_range.mpr (by omega)
  have hle := Finset.single_le_sum hterm hmem
  rw [← add_pow, hpq, one_pow] at hle
  unfold P_split
  have hsub : x + y - x = y := by omega
  rw [hsub] at hle
  linarith [hle]

/-- The Poisson probability mass `lam^n * exp(-lam) / n!` is at most one for
`lam ≥ 0`, because `lam^n / n!` is one term of the exponential series. -/
lemma poisson_mass_le_one (n : ℕ) {lam : ℝ} (hl : 0 ≤ lam) :
    lam ^ n * Real.exp (-lam) / (n.factorial : ℝ) ≤ 1 := by
  have hmem : n ∈ Finset.range (n + 1) := Finset.mem_range.mpr (by omega)
  have hterms : ∀ i ∈ Finset.range (n + 1), 0 ≤ lam ^ i / (i.factorial : ℝ) := by
    intro i hi
    positivity
  have hsingle := Finset.single_le_sum hterms hmem
  have hexp := Real.sum_le_exp_of_nonneg hl (n + 1)
  have h1 : lam ^ n / (n.factorial : ℝ) ≤ Real.exp lam := le_trans hsingle hexp
  have hpos : (0:ℝ) < Real.exp (-lam) := Real.exp_pos _
  have h2 := mul_le_mul_of_nonneg_right h1 hpos.le
  rw [← Real.exp_add] at h2
  simp only [add_neg_cancel, Real.exp_zero] at h2
  calc lam ^ n * Real.exp (-lam) / (n.factorial : ℝ)
      = lam ^ n / (n.factorial : ℝ) * Real.exp (-lam) := by ring
    _ ≤ 1 := h2

/-- Claim C7: for positive parameters, `jointProb` is non-negative and at
most one at every pair of counts, and at each fixed total `n` the sum of
`jointProb x (n - x)` over `x = 0, …, n` recovers the Poisson mass
`P_total n` of the total count. -/
theorem jointProb_valid (mu beta T1 T2 : ℝ)
    (hmu : 0 < mu) (hbeta : 0 < beta) (hT1 : 0 < T1) (hT2 : 0 < T2) :
    (∀ x y : ℕ, 0 ≤ jointProb x y mu beta T1 T2 ∧ jointProb x y mu beta T1 T2 ≤ 1) ∧
      ∀ n : ℕ, ∑ x ∈ Finset.range (n + 1), jointProb x (n - x) mu beta T1 T2 =
        P_total n mu beta T1 T2 := by
  have htau : 0 < T1 / T2 := by positivity
  have hlam : 0 ≤ mu * (T1 + beta * T2) := by positivity
  constructor
  · intro x y
    constructor
    · unfold jointProb
      positivity
    · rw [jointProb_eq_mul]
      have hPt_nonneg : 0 ≤ P_total (x + y) mu beta T1 T2 := by
        unfold P_total
        positivity
      have hPt_le : P_total (x + y) mu beta T1 T2 ≤ 1 := by
        unfold P_total
        exact poisson_mass_le_one (x + y) hlam
      have hPs_nonneg : 0 ≤ P_split x y beta (T1 / T2) := by
        unfold P_split
        positivity
      have hPs_le : P_split x y beta (T1 / T2) ≤ 1 :=
        P_split_le_one x y hbeta htau
      nlinarith
  · intro n
    have hstep : ∀ x ∈ Finset.range (n + 1),
        jointProb x (n - x) mu beta T1 T2 =
          P_total n mu beta T1 T2 *
            ((T1 / T2 / (T1 / T2 + beta)) ^ x *
              (beta / (T1 / T2 + beta)) ^ (n - x) * ((n.choose x : ℕ) : ℝ)) := by
      intro x hx
      have hxn : x ≤ n := Nat.lt_succ_iff.mp (Finset.mem_range.mp hx)
      have hadd : x + (n - x) = n := by omega
      rw [jointProb_eq_mul]
      unfold P_split
      rw [hadd]
      ring
    rw [Finset.sum_congr rfl hstep, ← Finset.mul_sum]
    have hbin : ∑ x ∈ Finset.range (n + 1),
        (T1 / T2 / (T1 / T2 + beta)) ^ x * (beta / (T1 / T2 + beta)) ^ (n - x) *
          ((n.choose x : ℕ) : ℝ) =
        (T1 / T2 / (T1 / T2 + beta) + beta / (T1 / T2 + beta)) ^ n :=
      (add_pow _ _ n).symm
    rw [hbin, split_weights_sum_one hbeta htau, one_pow, mul_one]

/-- Witness for `jointProb_valid` at unit parameters, evaluated at
`x = 1`, `y = 2` and total `n = 3`. -/
theorem jointProb_valid_witness :
    (0:ℝ) < 1 ∧
      ((0 ≤ jointProb 1 2 1 1 1 1 ∧ jointProb 1 2 1 1 1 1 ≤ 1) ∧
        ∑ x ∈ Finset.range (3 + 1), jointProb x (3 - x) 1 1 1 1 =
          P_total 3 1 1 1 1) := by
  have h := jointProb_valid 1 1 1 1 (by norm_num) (by norm_num) (by norm_num)
    (by norm_num)
  exact ⟨by norm_num, h.1 1 2, h.2 3⟩

/-- Shape of the radicand of `wilsonDet`: `q (1 - q) = x y / n²`. -/
lemma wilson_radicand_eq (x y : ℝ) (hn : 0 < x + y) :
    x / (x + y) * (1 - x / (x + y)) = x * y / ((x + y) * (x + y)) := by
  field_simp

/-- Sqrt-free core of the Wilson-root analysis: with `a`, `b`, `d` standing
for the centre, half-width coefficient and determinant of the general branch
(characterised by the equations below, `b < 0 < d`), the root `a + b d` is
positive, lies below `a - b d`, and `a - b d` stays below one.  The products
`(a + b d)(a - b d) = x² / (n (n + z²))` and
`(1 - a - b d)(1 - a + b d) = y² / (n (n + z²))` drive the sign analysis. -/
lemma wilson_core (x y z a b d : ℝ) (hx : 0 < x) (hy : 0 < y)
    (ha : a = (x + z * z / 2) / (x + y + z * z))
    (hb2 : b * b = z * z * (x + y) / ((x + y + z * z) * (x + y + z * z)))
    (hbneg : b < 0)
    (hd2 : d * d = x * y / ((x + y) * (x + y)) + z * z / (4 * (x + y)))
    (hdpos : 0 < d) :
    0 < a + b * d ∧ a + b * d ≤ a - b * d ∧ a - b * d < 1 := by
  have hn : 0 < x + y := by linarith
  have hz2 : 0 ≤ z * z := mul_self_nonneg z
  have hN : 0 < x + y + z * z := by linarith
  have hbd_neg : b * d < 0 := mul_neg_of_neg_of_pos hbneg hdpos
  have ha_pos : 0 < a := by
    rw [ha]
    apply div_pos (by linarith) hN
  have hL_pos : 0 < a - b * d := by linarith
  have hprod : (a + b * d) * (a - b * d) = x * x / ((x + y) * (x + y + z * z)) := by
    have hexp : (a + b * d) * (a - b * d) = a * a - b * b * (d * d) := by ring
    rw [hexp, hb2, hd2, ha]
    field_simp
    ring
  have hU_pos : 0 < a + b * d := by
    have hmul : 0 < (a + b * d) * (a - b * d) := by
      rw [hprod]
      positivity
    by_contra h
    push_neg at h
    nlinarith
  have h1a : a < 1 := by
    rw [ha, div_lt_one hN]
    linarith
  have hprod2 : (1 - (a + b * d)) * (1 - (a - b * d)) =
      y * y / ((x + y) * (x + y + z * z)) := by
    have hexp2 : (1 - (a + b * d)) * (1 - (a - b * d)) =
        (1 - a) * (1 - a) - b * b * (d * d) := by ring
    rw [hexp2, hb2, hd2, ha]
    field_simp
    ring
  have hL1 : a - b * d < 1 := by
    have hmul2 : 0 < (1 - (a + b * d)) * (1 - (a - b * d)) := by
      rw [hprod2]
      positivity
    have h1U : 0 < 1 - (a + b * d) := by linarith
    nlinarith
  exact ⟨hU_pos, by linarith, hL1⟩

/-- Core analysis of the Wilson roots when the quantile is negative and both
counts are positive: the upper-labelled root `U` is positive, lies below the
lower-labelled root `L`, and `L` stays below one. -/
lemma wilson_bounds (x y z : ℝ) (hx : 0 < x) (hy : 0 < y) (hz : z < 0) :
    0 < wilsonU x y z ∧ wilsonU x y z ≤ wilsonL x y z ∧ wilsonL x y z < 1 := by
  have hn : 0 < x + y := by linarith
  have hz2 : 0 ≤ z * z := mul_self_nonneg z
  have hN : 0 < x + y + z * z := by linarith
  have hq := wilson_radicand_eq x y hn
  have hrad : 0 < x / (x + y) * (1 - x / (x + y)) + z * z / (4 * (x + y)) := by
    rw [hq]
    have h1 : 0 < x * y / ((x + y) * (x + y)) := by positivity
    have h2 : 0 ≤ z * z / (4 * (x + y)) := div_nonneg hz2 (by positivity)
    linarith
  have hdet_pos : 0 < wilsonDet x y z := Real.sqrt_pos.mpr hrad
  have hdet2 : wilsonDet x y z * wilsonDet x y z =
      x * y / ((x + y) * (x + y)) + z * z / (4 * (x + y)) := by
    unfold wilsonDet
    rw [Real.mul_self_sqrt hrad.le, hq]
  have hsq : Real.sqrt (x + y) * Real.sqrt (x + y) = x + y :=
    Real.mul_self_sqrt hn.le
  have hsq_pos : 0 < Real.sqrt (x + y) := Real.sqrt_pos.mpr hn
  have hb_neg : wilsonB x y z < 0 :=
    div_neg_of_neg_of_pos (mul_neg_of_neg_of_pos hz hsq_pos) hN
  have hb2 : wilsonB x y z * wilsonB x y z =
      z * z * (x + y) / ((x + y + z * z) * (x + y + z * z)) := by
    unfold wilsonB
    rw [div_mul_div_comm]
    rw [show z * Real.sqrt (x + y) * (z * Real.sqrt (x + y)) =
      z * z * (Real.sqrt (x + y) * Real.sqrt (x + y)) from by ring, hsq]
  exact wilson_core x y z (wilsonA x y z) (wilsonB x y z) (wilsonDet x y z)
    hx hy rfl hb2 hb_neg hdet2 hdet_pos

/-- Ordering of the returned attributable-risk pair on the general branch:
mapping the Wilson roots through `p = 1 - 1 / (tau (1 - t) / t)` reverses
their order, so the pair `(p_L, p_U)` built from `(L, U)` is ordered. -/
lemma wilson_pair_ordered (x y tau z : ℝ) (hx : 0 < x) (hy : 0 < y)
    (htau : 0 < tau) (hz : z < 0) :
    1 - 1 / (tau * (1 - wilsonL x y z) / wilsonL x y z) ≤
      1 - 1 / (tau * (1 - wilsonU x y z) / wilsonU x y z) := by
  obtain ⟨hU_pos, hUL, hL1⟩ := wilson_bounds x y z hx hy hz
  have hL_pos : 0 < wilsonL x y z := lt_of_lt_of_le hU_pos hUL
  have hU1 : wilsonU x y z < 1 := lt_of_le_of_lt hUL hL1
  have h1L : 0 < 1 - wilsonL x y z := by linarith
  have h1U : 0 < 1 - wilsonU x y z := by linarith
  rw [one_div_div, one_div_div]
  have hden1 : 0 < tau * (1 - wilsonU x y z) := mul_pos htau h1U
  have hden2 : 0 < tau * (1 - wilsonL x y z) := mul_pos htau h1L
  have key : wilsonU x y z / (tau * (1 - wilsonU x y z)) ≤
      wilsonL x y z / (tau * (1 - wilsonL x y z)) := by
    rw [div_le_div_iff₀ hden1 hden2]
    nlinarith
  linarith

/-- Claim C1 (amended): for `y > 0`, `tau > 0`, `0 < alpha < 1` and quantile
value `z < 0` (the sign `z = Φ⁻¹(α/2) < 0` always holds, see the claim C9
theorem), a returned pair `(p_L, p_U)` is ordered `p_L ≤ p_U` on the general
branch (`x > 0`); on the `x == 0` branch the ordering can fail and holds
under the additional condition `tau · c² + c ≤ 1` with `c = alpha^(1/(x+y))`
(the counterexample violates exactly this condition). -/
theorem confidence_pair_ordered (x y alpha tau z pL pU : ℝ)
    (hy : 0 < y) (htau : 0 < tau) (ha : 0 < alpha) (ha1 : alpha < 1)
    (hz : z < 0)
    (hbranch : 0 < x ∨ (x = 0 ∧
      tau * alpha ^ (1 / (x + y)) * alpha ^ (1 / (x + y)) +
        alpha ^ (1 / (x + y)) ≤ 1))
    (hret : confidence x y alpha tau z = some (pL, pU)) :
    pL ≤ pU := by
  have hy' : y ≠ 0 := hy.ne'
  rcases hbranch with hx | hx0
  · have hx' : x ≠ 0 := hx.ne'
    unfold confidence at hret
    rw [if_neg hy', if_neg hx'] at hret
    obtain ⟨hL, hU⟩ := Prod.mk.injEq .. ▸ Option.some.inj hret
    rw [← hL, ← hU]
    exact wilson_pair_ordered x y tau z hx hy htau hz
  · obtain ⟨hx0, hcond⟩ := hx0
    subst hx0
    unfold confidence at hret
    rw [if_neg hy', if_pos rfl] at hret
    obtain ⟨hL, hU⟩ := Prod.mk.injEq .. ▸ Option.some.inj hret
    rw [← hL, ← hU]
    have hc_pos : 0 < alpha ^ (1 / ((0:ℝ) + y)) := Real.rpow_pos_of_pos ha _
    have htc : 0 < tau * alpha ^ (1 / ((0:ℝ) + y)) := mul_pos htau hc_pos
    have hkey : alpha ^ (1 / ((0:ℝ) + y)) ≤
        (1 - alpha ^ (1 / ((0:ℝ) + y))) / (tau * alpha ^ (1 / ((0:ℝ) + y))) := by
      rw [le_div_iff₀ htc]
      nlinarith
    linarith

/-- Witness for `confidence_pair_ordered` on the `x == 0` branch at `y = 1`,
`alpha = 1/2`, `tau = 1`, `z = -1`, where the pair is `(0, 1/2)`. -/
theorem confidence_pair_ordered_witness :
    (0:ℝ) < 1 ∧ (1:ℝ)/2 < 1 ∧ (-1:ℝ) < 0 ∧
      ((0:ℝ) = 0 ∧
        1 * (1/2:ℝ) ^ (1 / ((0:ℝ) + 1)) * (1/2:ℝ) ^ (1 / ((0:ℝ) + 1)) +
          (1/2:ℝ) ^ (1 / ((0:ℝ) + 1)) ≤ 1) ∧
      confidence 0 1 (1/2) 1 (-1) = some (0, 1/2) ∧ (0:ℝ) ≤ 1/2 := by
  have hc : ((1:ℝ)/2) ^ (1 / ((0:ℝ) + 1)) = 1/2 := by
    norm_num
  have hcond : (1:ℝ) * (1/2:ℝ) ^ (1 / ((0:ℝ) + 1)) * (1/2:ℝ) ^ (1 / ((0:ℝ) + 1)) +
      (1/2:ℝ) ^ (1 / ((0:ℝ) + 1)) ≤ 1 := by
    rw [hc]
    norm_num
  have hret : confidence 0 1 (1/2) 1 (-1) = some (0, 1/2) := by
    unfold confidence
    rw [if_neg (by norm_num : (1:ℝ) ≠ 0), if_pos rfl]
    rw [show (1:ℝ) / ((0:ℝ) + 1) = 1 from by norm_num, Real.rpow_one]
    norm_num
  exact ⟨by norm_num, by norm_num, by norm_num, ⟨rfl, hcond⟩, hret,
    confidence_pair_ordered 0 1 (1/2) 1 (-1) 0 (1/2) (by norm_num) (by norm_num)
      (by norm_num) (by norm_num) (by norm_num) (Or.inr ⟨rfl, hcond⟩) hret⟩

/-- The standard normal density is everywhere positive. -/
lemma stdNormalPDF_pos (u : ℝ) : 0 < stdNormalPDF u := by
  unfold stdNormalPDF
  exact div_pos (Real.exp_pos _)
    (Real.sqrt_pos.mpr (by positivity))

/-- The standard normal density is integrable over the line. -/
lemma integrable_stdNormalPDF : MeasureTheory.Integrable stdNormalPDF := by
  have h := integrable_exp_neg_mul_sq (show (0:ℝ) < 1/2 by norm_num)
  exact h.div_const (Real.sqrt (2 * Real.pi))

/-- The standard normal density integrates to one. -/
lemma integral_stdNormalPDF : ∫ u, stdNormalPDF u = 1 := by
  unfold stdNormalPDF
  rw [MeasureTheory.integral_div, integral_gaussian,
    show Real.pi / (1/2) = 2 * Real.pi from by ring]
  exact div_self (Real.sqrt_pos.mpr (by positivity)).ne'

/-- The standard normal density is even. -/
lemma stdNormalPDF_even (u : ℝ) : stdNormalPDF (-u) = stdNormalPDF u := by
  unfold stdNormalPDF
  rw [neg_sq]

/-- Symmetry of the standard normal distribution: the CDF at the mean is one
half. -/
lemma stdNormalCDF_zero : stdNormalCDF 0 = 1 / 2 := by
  have hint := integrable_stdNormalPDF
  have hsplit : (∫ u in Set.Iic (0:ℝ), stdNormalPDF u) +
      ∫ u in Set.Ioi (0:ℝ), stdNormalPDF u = ∫ u, stdNormalPDF u := by
    rw [← MeasureTheory.setIntegral_union (Set.Iic_disjoint_Ioi le_rfl)
      measurableSet_Ioi hint.integrableOn hint.integrableOn, Set.Iic_union_Ioi,
      MeasureTheory.setIntegral_univ]
  have hflip : (∫ u in Set.Iic (0:ℝ), stdNormalPDF u) =
      ∫ u in Set.Ioi (0:ℝ), stdNormalPDF u := by
    calc (∫ u in Set.Iic (0:ℝ), stdNormalPDF u)
        = ∫ u in Set.Iic (0:ℝ), stdNormalPDF (-u) := by
          simp_rw [stdNormalPDF_even]
      _ = ∫ u in Set.Ioi (-(0:ℝ)), stdNormalPDF u :=
          integral_comp_neg_Iic 0 stdNormalPDF
      _ = ∫ u in Set.Ioi (0:ℝ), stdNormalPDF u := by rw [neg_zero]
  rw [integral_stdNormalPDF] at hsplit
  unfold stdNormalCDF
  linarith

/-- Monotonicity of the modelled CDF. -/
lemma stdNormalCDF_mono {s t : ℝ} (h : s ≤ t) :
    stdNormalCDF s ≤ stdNormalCDF t := by
  unfold stdNormalCDF
  apply MeasureTheory.setIntegral_mono_set integrable_stdNormalPDF.integrableOn
  · exact MeasureTheory.ae_of_all _ fun u => (stdNormalPDF_pos u).le
  · exact (Set.Iic_subset_Iic.mpr h).eventuallyLE

/-- A quantile of a level strictly below one half is negative. -/
lemma quantile_neg {alpha z : ℝ} (ha : 0 < alpha) (ha1 : alpha < 1)
    (hq : stdNormalCDF z = alpha / 2) : z < 0 := by
  by_contra h
  push_neg at h
  have hm := stdNormalCDF_mono h
  rw [stdNormalCDF_zero, hq] at hm
  linarith

/-- The modelled CDF is strictly positive at `-1` (needed to exhibit a
concrete level `alpha` with its quantile). -/
lemma stdNormalCDF_neg_one_pos : 0 < stdNormalCDF (-1) := by
  unfold stdNormalCDF
  rw [MeasureTheory.setIntegral_pos_iff_support_of_nonneg_ae
    (MeasureTheory.ae_of_all _ fun u => (stdNormalPDF_pos u).le)
    integrable_stdNormalPDF.integrableOn]
  have hsupp : Function.support stdNormalPDF ∩ Set.Iic (-1:ℝ) = Set.Iic (-1:ℝ) :=
    Set.inter_eq_self_of_subset_right fun u _ =>
      Function.mem_support.mpr (stdNormalPDF_pos u).ne'
  rw [hsupp, Real.volume_Iic]
  exact ENNReal.zero_lt_top

/-- The modelled CDF at `-1` is strictly below one half. -/
lemma stdNormalCDF_neg_one_lt_half : stdNormalCDF (-1) < 1 / 2 := by
  have hint := integrable_stdNormalPDF
  have hsplit : stdNormalCDF 0 =
      stdNormalCDF (-1) + ∫ u in Set.Ioc (-1:ℝ) 0, stdNormalPDF u := by
    unfold stdNormalCDF
    rw [← MeasureTheory.setIntegral_union (Set.Iic_disjoint_Ioc le_rfl)
      measurableSet_Ioc hint.integrableOn hint.integrableOn,
      Set.Iic_union_Ioc_eq_Iic (by norm_num : (-1:ℝ) ≤ 0)]
  have hpos : 0 < ∫ u in Set.Ioc (-1:ℝ) 0, stdNormalPDF u := by
    rw [MeasureTheory.setIntegral_pos_iff_support_of_nonneg_ae
      (MeasureTheory.ae_of_all _ fun u => (stdNormalPDF_pos u).le)
      hint.integrableOn]
    have hsupp : Function.support stdNormalPDF ∩ Set.Ioc (-1:ℝ) 0 =
        Set.Ioc (-1:ℝ) 0 :=
      Set.inter_eq_self_of_subset_right fun u _ =>
        Function.mem_support.mpr (stdNormalPDF_pos u).ne'
    rw [hsupp, Real.volume_Ioc]
    norm_num
  rw [stdNormalCDF_zero] at hsplit
  linarith

/-- Claim C9: in the general branch of `confidence` (`x > 0`, `y > 0`,
`0 < alpha < 1`), the quantile `z = Φ⁻¹(alpha/2)` — characterised by
`stdNormalCDF z = alpha / 2` — is negative, and consequently the
intermediate proportion bounds as computed satisfy `L ≥ U`: `L = a - b·det`
is the larger root and `U = a + b·det` the smaller. -/
theorem quantile_negative_roots_swapped (alpha x y z : ℝ)
    (ha : 0 < alpha) (ha1 : alpha < 1) (hq : stdNormalCDF z = alpha / 2)
    (hx : 0 < x) (hy : 0 < y) :
    z < 0 ∧ wilsonU x y z ≤ wilsonL x y z := by
  have hz := quantile_neg ha ha1 hq
  exact ⟨hz, (wilson_bounds x y z hx hy hz).2.1⟩

/-- Witness for `quantile_negative_roots_swapped`: the level
`alpha = 2 · Φ(-1)` lies in `(0, 1)` and has quantile `z = -1`; at
`x = y = 1` the computed roots satisfy `U ≤ L`. -/
theorem quantile_negative_roots_swapped_witness :
    0 < 2 * stdNormalCDF (-1) ∧ 2 * stdNormalCDF (-1) < 1 ∧
      stdNormalCDF (-1) = 2 * stdNormalCDF (-1) / 2 ∧
      ((-1:ℝ) < 0 ∧ wilsonU 1 1 (-1) ≤ wilsonL 1 1 (-1)) := by
  have h0 := stdNormalCDF_neg_one_pos
  have h12 := stdNormalCDF_neg_one_lt_half
  exact ⟨by linarith, by linarith, by ring,
    quantile_negative_roots_swapped (2 * stdNormalCDF (-1)) 1 1 (-1)
      (by linarith) (by linarith) (by ring) one_pos one_pos⟩

end TrackMaps
